import Mathlib

/-!
Verification of the edit-overlay subsystem of the kidney biopsy report
generator.  The embedded functions are `detectEdits`
(frontend/utils/editDetector.ts) and `applyEditOverlay`,
`captureCurrentEdits`, `generateReport` (frontend/app/page.tsx).

Report texts are represented by their lists of lines: the JavaScript code
splits every report string on newline on entry (`split('\n')`) and joins
on exit (`join('\n')`), so the algorithms operate purely on line lists.
The empty string corresponds to the one-element line list `[""]`
(a JavaScript string is falsy exactly when it is empty).
-/

namespace KidneyReport

/-- Provenance anchor produced by the backend (types/report.ts, `LineMapping`). -/
structure LineMapping where
  line_number : Nat
  source_code : String
  original_text : String
deriving Repr, DecidableEq

/-- One preserved per-line user edit (types/report.ts, `EditEntry`). -/
structure EditEntry where
  originalText : String
  editedText : String
  sourceCode : String
  lineNumber : Nat
deriving Repr, DecidableEq

/-- Trailing user-added line (types/report.ts, `ManualAddition`). -/
structure ManualAddition where
  afterLine : Nat
  text : String
deriving Repr, DecidableEq

/-- The `lineToSource` map of `detectEdits`: the JS code builds a `Map` by
inserting every mapping in order (a later entry with the same
`line_number` overwrites an earlier one), and reads it back with
`get(lineNumber) || ''`.  Looking up the last matching entry, defaulting
to the empty string, is exactly that behaviour. -/
def lineToSource (lineMappings : List LineMapping) (lineNumber : Nat) : String :=
  match lineMappings.reverse.find? (fun m => m.line_number == lineNumber) with
  | some m => m.source_code
  | none => ""

/-- The per-index loop of `detectEdits` (editDetector.ts lines 30-46):
walk both line lists in lockstep (the loop runs to the minimum of the two
lengths), and for each 1-based line number where the lines differ record
an `EditEntry`.  `i` is the number of lines already consumed, so the
current line number is `i + 1`. -/
def detectEditsAux (lineMappings : List LineMapping) :
    Nat → List String → List String → List (Nat × EditEntry)
  | _, [], _ => []
  | _, _ :: _, [] => []
  | i, originalLine :: os, editedLine :: es =>
    (if originalLine ≠ editedLine then
      [(i + 1,
        { originalText := originalLine
          editedText := editedLine
          sourceCode := lineToSource lineMappings (i + 1)
          lineNumber := i + 1 })]
     else []) ++ detectEditsAux lineMappings (i + 1) os es

/-- `detectEdits` (editDetector.ts lines 7-59), on the line lists obtained
from splitting the two report strings.  The overlay is an association
list keyed by 1-based line number (the JS `Map` in insertion order,
all keys distinct), and the trailing loop (lines 49-56) turns every
edited line beyond the original line count into a `ManualAddition`
anchored at `afterLine = originalLines.length`, in encounter order. -/
def detectEdits (originalLines editedLines : List String)
    (lineMappings : List LineMapping) :
    List (Nat × EditEntry) × List ManualAddition :=
  let editOverlay := detectEditsAux lineMappings 0 originalLines editedLines
  let manualAdditions :=
    if originalLines.length < editedLines.length then
      (editedLines.drop originalLines.length).map
        (fun t => { afterLine := originalLines.length, text := t })
    else []
  (editOverlay, manualAdditions)

/-- One step of the overlay phase of `applyEditOverlay` (page.tsx lines
81-85): a line is replaced by the overlay's `editedText` when the overlay
has an entry for its line number, otherwise kept. -/
def applyOverlayLine (overlay : List (Nat × EditEntry)) (lineNumber : Nat)
    (line : String) : String :=
  match overlay.lookup lineNumber with
  | some edit => edit.editedText
  | none => line

/-- The overlay phase of `applyEditOverlay`: map `applyOverlayLine` over
the baseline with 1-based line numbers (`index + 1` in the JS code).
`i` counts the lines already consumed. -/
def applyOverlayLines (overlay : List (Nat × EditEntry)) :
    Nat → List String → List String
  | _, [] => []
  | i, line :: rest =>
    applyOverlayLine overlay (i + 1) line :: applyOverlayLines overlay (i + 1) rest

/-- JavaScript `result.splice(insertIndex, 0, text)` for a non-negative
index: insert `a` at position `i`, clamping `i` to the length of the list
(`splice` appends when the start index exceeds the length). -/
def spliceInsert (xs : List String) (i : Nat) (a : String) : List String :=
  xs.take i ++ a :: xs.drop i

/-- The comparator of `applyEditOverlay`'s sort,
`(a, b) => a.afterLine - b.afterLine`: ascending order on `afterLine`. -/
def additionLE (a b : ManualAddition) : Bool :=
  a.afterLine ≤ b.afterLine

/-- The insertion loop of `applyEditOverlay` (page.tsx lines 90-96): fold
over the (sorted) additions, inserting each at `afterLine + offset` and
incrementing the offset after each insertion.  The accumulator pairs the
lines built so far with the current offset. -/
def insertAdditions (additions : List ManualAddition)
    (start : List String × Nat) : List String × Nat :=
  additions.foldl
    (fun acc addition =>
      (spliceInsert acc.1 (addition.afterLine + acc.2) addition.text, acc.2 + 1))
    start

/-- `applyEditOverlay` (page.tsx lines 76-99) on line lists: apply the
overlay per line, sort the additions by `afterLine` (JavaScript
`Array.prototype.sort` is stable, and core `List.mergeSort` is the stable
sort), then splice each addition in at `afterLine + offset`. -/
def applyEditOverlay (lines : List String) (overlay : List (Nat × EditEntry))
    (additions : List ManualAddition) : List String :=
  let editedLines := applyOverlayLines overlay 0 lines
  let sortedAdditions := additions.mergeSort additionLE
  (insertAdditions sortedAdditions (editedLines, 0)).1

/-- The fields of the backend response used by `generateReport`
(types/report.ts, `GeneratedReportResponse`); the report text is
represented by its lines. -/
structure GeneratedReportResponse where
  report_text : List String
  line_mappings : List LineMapping

/-- The React state of the page component that the edit-overlay engine
reads and writes (page.tsx lines 34-44).  Report texts are line lists;
the empty report is `[""]`. -/
structure ReportState where
  shorthandText : String
  generatedReport : List String
  editableReport : List String
  editOverlay : List (Nat × EditEntry)
  manualAdditions : List ManualAddition
  isEditMode : Bool
  lineMappings : List LineMapping

/-- `captureCurrentEdits` (page.tsx lines 61-74): when in edit mode with a
non-empty generated report and a non-empty editable report, run
`detectEdits` against the in-flight editable text, store the result in
the state and return it; otherwise return the overlay and additions
already in the state.  (A JS string is truthy exactly when non-empty,
i.e. when its line list is not `[""]`.) -/
def captureCurrentEdits (s : ReportState) :
    ReportState × (List (Nat × EditEntry) × List ManualAddition) :=
  if s.isEditMode ∧ s.generatedReport ≠ [""] ∧ s.editableReport ≠ [""] then
    let r := detectEdits s.generatedReport s.editableReport s.lineMappings
    ({ s with editOverlay := r.1, manualAdditions := r.2 }, r)
  else
    (s, (s.editOverlay, s.manualAdditions))

/-- The success path of `generateReport` (page.tsx lines 101-134), with
the backend response passed in as a value: an empty (after trimming)
shorthand clears the reports; otherwise the pending edits are captured
first, the response's line mappings are stored, and the captured overlay
and additions are applied to the fresh baseline unless both are empty, in
which case the raw response text is used. -/
def generateReport (s : ReportState) (response : GeneratedReportResponse) :
    ReportState :=
  if s.shorthandText.trim = "" then
    { s with generatedReport := [""], editableReport := [""] }
  else
    let c := captureCurrentEdits s
    let finalReport :=
      if c.2.1.length > 0 ∨ c.2.2.length > 0 then
        applyEditOverlay response.report_text c.2.1 c.2.2
      else
        response.report_text
    { c.1 with
        lineMappings := response.line_mappings
        generatedReport := finalReport
        editableReport := finalReport }

/-- Variant of `generateReport` with the empty-overlay fast path removed:
`applyEditOverlay` is called unconditionally on the response text.  Used
to state the refinement equivalence of the fast path. -/
def generateReportUnconditional (s : ReportState)
    (response : GeneratedReportResponse) : ReportState :=
  if s.shorthandText.trim = "" then
    { s with generatedReport := [""], editableReport := [""] }
  else
    let c := captureCurrentEdits s
    let finalReport := applyEditOverlay response.report_text c.2.1 c.2.2
    { c.1 with
        lineMappings := response.line_mappings
        generatedReport := finalReport
        editableReport := finalReport }

/-- Specification expression for the addition phase of `applyEditOverlay`:
walking the base lines with a position counter `k`, the texts of all
additions anchored at `afterLine = k` (in input order) are placed after
the first `k` lines; additions anchored at the total length come last. -/
def groupedAdditionsAux (adds : List ManualAddition) :
    Nat → List String → List String
  | k, [] => (adds.filter (fun a => a.afterLine == k)).map (fun a => a.text)
  | k, y :: ys =>
    (adds.filter (fun a => a.afterLine == k)).map (fun a => a.text)
      ++ y :: groupedAdditionsAux adds (k + 1) ys

/-- Grouped-insertion specification of the addition phase, starting at
position 0. -/
def groupedAdditions (adds : List ManualAddition) (ys : List String) :
    List String :=
  groupedAdditionsAux adds 0 ys

/-! ### Basic lemmas about lookups and the overlay phase -/

theorem lookup_eq_none_of_forall {k : Nat} :
    ∀ {l : List (Nat × EditEntry)}, (∀ p ∈ l, p.1 ≠ k) → l.lookup k = none
  | [], _ => rfl
  | (a, b) :: rest, h => by
    have ha : (k == a) = false := by
      simp only [beq_eq_false_iff_ne, ne_eq]
      exact fun e => h (a, b) (List.mem_cons_self _ _) e.symm
    rw [List.lookup_cons, ha]
    exact lookup_eq_none_of_forall fun p hp => h p (List.mem_cons_of_mem _ hp)

theorem lookup_append_of_eq_none {k : Nat} {OV : List (Nat × EditEntry)} :
    ∀ {X : List (Nat × EditEntry)}, X.lookup k = none →
      (X ++ OV).lookup k = OV.lookup k
  | [], _ => rfl
  | (a, b) :: rest, h => by
    rw [List.lookup_cons] at h
    rcases hk : (k == a) with _ | _
    · rw [List.cons_append, List.lookup_cons, hk]
      exact lookup_append_of_eq_none (by rw [hk] at h; exact h)
    · rw [hk] at h; exact absurd h (by simp)

/-- Every key recorded by `detectEditsAux` starting at counter `j` lies in
the interval `(j, j + min(len original, len edited)]`. -/
theorem detectEditsAux_keys (m : List LineMapping) :
    ∀ (j : Nat) (os es : List String), ∀ p ∈ detectEditsAux m j os es,
      j < p.1 ∧ p.1 ≤ j + min os.length es.length
  | j, [], es, p, hp => by simp [detectEditsAux] at hp
  | j, _ :: _, [], p, hp => by simp [detectEditsAux] at hp
  | j, o :: os, e :: es, p, hp => by
    simp only [detectEditsAux, List.mem_append] at hp
    rcases hp with hp | hp
    · have : p.1 = j + 1 := by
        by_cases he : o ≠ e <;> simp [he] at hp
        rw [hp]
      simp only [this, List.length_cons]
      omega
    · have := detectEditsAux_keys m (j + 1) os es p hp
      simp only [List.length_cons]
      omega

theorem applyOverlayLines_length (overlay : List (Nat × EditEntry)) :
    ∀ (j : Nat) (os : List String),
      (applyOverlayLines overlay j os).length = os.length
  | _, [] => rfl
  | j, _ :: os => by
    simp [applyOverlayLines, applyOverlayLines_length overlay (j + 1) os]

/-- A prefix of the overlay whose keys are all at most `j` never matches a
line number of the form `j + i + 1`, so it can be discarded. -/
theorem applyOverlayLines_append_of_le {X OV : List (Nat × EditEntry)} :
    ∀ (j : Nat) (os : List String), (∀ p ∈ X, p.1 ≤ j) →
      applyOverlayLines (X ++ OV) j os = applyOverlayLines OV j os
  | _, [], _ => rfl
  | j, o :: os, h => by
    simp only [applyOverlayLines, applyOverlayLine]
    rw [lookup_append_of_eq_none
        (lookup_eq_none_of_forall fun p hp => by have := h p hp; omega),
      applyOverlayLines_append_of_le (j + 1) os fun p hp => by
        have := h p hp; omega]

/-- An overlay whose keys all exceed the last line number leaves every line
unchanged. -/
theorem applyOverlayLines_of_stale {OV : List (Nat × EditEntry)} :
    ∀ (j : Nat) (os : List String), (∀ p ∈ OV, j + os.length < p.1) →
      applyOverlayLines OV j os = os
  | _, [], _ => rfl
  | j, o :: os, h => by
    simp only [List.length_cons] at h
    simp only [applyOverlayLines, applyOverlayLine]
    rw [lookup_eq_none_of_forall fun p hp => by have := h p hp; omega,
      applyOverlayLines_of_stale (j + 1) os fun p hp => by have := h p hp; omega]

theorem applyOverlayLines_nil_overlay :
    ∀ (j : Nat) (os : List String), applyOverlayLines [] j os = os
  | _, [] => rfl
  | j, o :: os => by
    simp [applyOverlayLines, applyOverlayLine, List.lookup,
      applyOverlayLines_nil_overlay (j + 1) os]

/-- Replaying the overlay detected between `os` and `es` on top of `os`
reproduces the common prefix of `es` (the diff-then-patch identity for the
per-line phase). -/
theorem applyOverlayLines_detectEditsAux (m : List LineMapping) :
    ∀ (j : Nat) (os es : List String), os.length ≤ es.length →
      applyOverlayLines (detectEditsAux m j os es) j os = es.take os.length
  | _, [], es, _ => by simp [applyOverlayLines]
  | _, _ :: _, [], h => by simp at h
  | j, o :: os, e :: es, h => by
    simp only [List.length_cons] at h
    simp only [detectEditsAux, applyOverlayLines, List.length_cons,
      List.take_succ_cons]
    have hrest : applyOverlayLines
        ((if o ≠ e then
            [(j + 1, { originalText := o, editedText := e,
                       sourceCode := lineToSource m (j + 1),
                       lineNumber := j + 1 })]
          else []) ++ detectEditsAux m (j + 1) os es) (j + 1) os =
        es.take os.length := by
      rw [applyOverlayLines_append_of_le (j + 1) os (by
          by_cases he : o ≠ e <;> simp [he]),
        applyOverlayLines_detectEditsAux m (j + 1) os es (by omega)]
    rw [hrest]
    by_cases he : o ≠ e
    · simp [he, applyOverlayLine, List.lookup_cons]
    · simp only [he, if_neg, List.nil_append, applyOverlayLine]
      rw [lookup_eq_none_of_forall fun p hp => by
        have := detectEditsAux_keys m (j + 1) os es p hp; omega]
      simp only [not_not] at he
      rw [he]

/-- Full characterization of the overlay produced by `detectEditsAux`: the
entry for line number `j + i + 1` exists exactly when the two lines at
offset `i` differ, and then carries both lines and the source code looked
up for that line number. -/
theorem detectEditsAux_lookup (m : List LineMapping) :
    ∀ (j i : Nat) (os es : List String), i < min os.length es.length →
      (detectEditsAux m j os es).lookup (j + i + 1) =
        if os.getD i "" ≠ es.getD i "" then
          some { originalText := os.getD i "", editedText := es.getD i "",
                 sourceCode := lineToSource m (j + i + 1),
                 lineNumber := j + i + 1 }
        else none
  | _, i, [], es, h => by simp only [List.length_nil] at h; omega
  | _, i, _ :: _, [], h => by simp only [List.length_nil] at h; omega
  | j, 0, o :: os, e :: es, _ => by
    simp only [detectEditsAux, List.getD_cons_zero, Nat.add_zero]
    by_cases he : o ≠ e
    · simp [he, List.lookup_cons]
    · rw [if_neg he, if_neg he, List.nil_append]
      exact lookup_eq_none_of_forall fun p hp => by
        have := detectEditsAux_keys m (j + 1) os es p hp; omega
  | j, i + 1, o :: os, e :: es, h => by
    simp only [List.length_cons] at h
    have hi : i < min os.length es.length := by omega
    have step := detectEditsAux_lookup m (j + 1) i os es hi
    simp only [detectEditsAux, List.getD_cons_succ]
    have harith : j + 1 + i + 1 = j + (i + 1) + 1 := by omega
    rw [harith] at step
    by_cases he : o ≠ e
    · rw [if_pos he, List.cons_append, List.nil_append, List.lookup_cons,
        show ((j + (i + 1) + 1) == (j + 1)) = false by
          simp only [beq_eq_false_iff_ne, ne_eq]; omega]
      exact step
    · rw [if_neg he, List.nil_append]
      exact step

/-! ### Lemmas about `spliceInsert` and `insertAdditions` -/

theorem spliceInsert_of_length_le {xs : List String} {i : Nat}
    (h : xs.length ≤ i) (a : String) : spliceInsert xs i a = xs ++ [a] := by
  simp [spliceInsert, List.take_of_length_le h, List.drop_eq_nil_of_le h]

theorem spliceInsert_append (A B : List String) (a : String) :
    spliceInsert (A ++ B) A.length a = A ++ a :: B := by
  simp [spliceInsert, List.take_left, List.drop_left]

theorem insertAdditions_nil (start : List String × Nat) :
    insertAdditions [] start = start := rfl

theorem insertAdditions_cons (a : ManualAddition) (rest : List ManualAddition)
    (start : List String × Nat) :
    insertAdditions (a :: rest) start =
      insertAdditions rest
        (spliceInsert start.1 (a.afterLine + start.2) a.text, start.2 + 1) := rfl

/-- Inserting additions that all share the anchor `L` into a list of length
`L + offset` appends their texts at the end, in list order. -/
theorem insertAdditions_const_anchor {L : Nat} :
    ∀ (adds : List ManualAddition) (xs : List String) (k : Nat),
      (∀ a ∈ adds, a.afterLine = L) → xs.length = L + k →
      (insertAdditions adds (xs, k)).1 = xs ++ adds.map (fun a => a.text)
  | [], xs, _, _, _ => by simp [insertAdditions_nil]
  | a :: rest, xs, k, h, hlen => by
    rw [insertAdditions_cons]
    have ha : a.afterLine = L := h a (List.mem_cons_self _ _)
    have hsplice : spliceInsert xs (a.afterLine + k) a.text = xs ++ [a.text] :=
      spliceInsert_of_length_le (by omega) a.text
    simp only [hsplice]
    rw [insertAdditions_const_anchor rest (xs ++ [a.text]) (k + 1)
      (fun b hb => h b (List.mem_cons_of_mem _ hb))
      (by simp [List.length_append]; omega)]
    simp

theorem pairwise_additionLE_of_const {L : Nat} :
    ∀ {adds : List ManualAddition}, (∀ a ∈ adds, a.afterLine = L) →
      adds.Pairwise (fun a b => additionLE a b = true)
  | [], _ => List.Pairwise.nil
  | a :: rest, h =>
    List.Pairwise.cons
      (fun b hb => by
        simp only [additionLE, h a (List.mem_cons_self _ _),
          h b (List.mem_cons_of_mem _ hb), decide_eq_true_eq]
        omega)
      (pairwise_additionLE_of_const fun b hb => h b (List.mem_cons_of_mem _ hb))

/-- Applying an empty overlay and no additions is the identity. -/
theorem applyEditOverlay_id (lines : List String) :
    applyEditOverlay lines [] [] = lines := by
  simp [applyEditOverlay, List.mergeSort_nil, insertAdditions_nil,
    applyOverlayLines_nil_overlay]

/-- The diff/patch round trip: replaying the overlay and additions detected
between `orig` and `edited` on top of `orig` itself reconstructs `edited`,
provided `edited` has at least as many lines as `orig`. -/
theorem roundtrip_aux (orig edited : List String) (m : List LineMapping)
    (h : orig.length ≤ edited.length) :
    applyEditOverlay orig (detectEdits orig edited m).1
      (detectEdits orig edited m).2 = edited := by
  have hadds : (detectEdits orig edited m).2 =
      (edited.drop orig.length).map
        (fun t => { afterLine := orig.length, text := t }) := by
    simp only [detectEdits]
    split
    · rfl
    · rw [List.drop_eq_nil_of_le (by omega)]; rfl
  have hanchor : ∀ a ∈ (detectEdits orig edited m).2,
      a.afterLine = orig.length := by
    rw [hadds]
    intro a ha
    rcases List.mem_map.mp ha with ⟨t, _, rfl⟩
    rfl
  simp only [applyEditOverlay]
  rw [List.mergeSort_of_sorted (pairwise_additionLE_of_const hanchor)]
  have hov : applyOverlayLines (detectEdits orig edited m).1 0 orig =
      edited.take orig.length := by
    simpa using applyOverlayLines_detectEditsAux m 0 orig edited h
  rw [hov, insertAdditions_const_anchor (detectEdits orig edited m).2
    (edited.take orig.length) 0 hanchor
    (by simp [List.length_take]; omega)]
  rw [hadds]
  simp only [List.map_map]
  rw [show ((fun a : ManualAddition => a.text) ∘
      fun t => ({ afterLine := orig.length, text := t } : ManualAddition)) =
      fun t => t from rfl]
  simp [List.take_append_drop]

/-! ### The addition-insertion phase: grouped-insertion characterization -/

theorem spliceInsert_zero (ys : List String) (x : String) :
    spliceInsert ys 0 x = x :: ys := by
  simp [spliceInsert]

theorem spliceInsert_succ_cons (y : String) (ys : List String) (n : Nat)
    (x : String) : spliceInsert (y :: ys) (n + 1) x = y :: spliceInsert ys n x := by
  simp [spliceInsert, List.take_succ_cons, List.drop_succ_cons]

theorem spliceInsert_length (ys : List String) (i : Nat) (a : String) :
    (spliceInsert ys i a).length = ys.length + 1 := by
  simp only [spliceInsert, List.length_append, List.length_take,
    List.length_cons, List.length_drop]
  omega

/-- Two insertions commute: inserting `x` at `p` first shifts a later
insertion point by one, so inserting `t` at `q + 1` afterwards lands where
inserting `t` at `q` alone would have (for `p ≤ q`). -/
theorem spliceInsert_swap {x t : String} :
    ∀ (p q : Nat) (ys : List String), p ≤ q → p ≤ ys.length →
      spliceInsert (spliceInsert ys p x) (q + 1) t =
        spliceInsert (spliceInsert ys q t) p x
  | 0, q, ys, _, _ => by
    rw [spliceInsert_zero, spliceInsert_zero, spliceInsert_succ_cons]
  | p + 1, 0, _, hpq, _ => by omega
  | p + 1, _, [], _, hlen => by simp only [List.length_nil] at hlen; omega
  | p + 1, q + 1, y :: ys, hpq, hlen => by
    simp only [List.length_cons] at hlen
    simp only [spliceInsert_succ_cons]
    rw [spliceInsert_swap p q ys (by omega) (by omega)]

/-- The insertion loop started after a prior insertion at position `p`
(which bumped the offset) equals the insertion loop without it followed by
that insertion, provided every remaining anchor is at least `p` and stays
in range. -/
theorem insertAdditions_spliceInsert_comm {p : Nat} {x : String} :
    ∀ (rest : List ManualAddition) (ys : List String) (off : Nat),
      (∀ b ∈ rest, p ≤ b.afterLine) →
      (∀ b ∈ rest, b.afterLine + off ≤ ys.length) →
      p ≤ ys.length →
      (insertAdditions rest (spliceInsert ys p x, off + 1)).1 =
        spliceInsert (insertAdditions rest (ys, off)).1 p x
  | [], ys, off, _, _, _ => by rw [insertAdditions_nil, insertAdditions_nil]
  | b :: rest, ys, off, hges, hin, hp => by
    rw [insertAdditions_cons, insertAdditions_cons]
    simp only
    have hb := hges b (List.mem_cons_self _ _)
    rw [show b.afterLine + (off + 1) = b.afterLine + off + 1 by omega,
      spliceInsert_swap p (b.afterLine + off) ys (by omega) hp]
    exact insertAdditions_spliceInsert_comm rest
      (spliceInsert ys (b.afterLine + off) b.text) (off + 1)
      (fun c hc => hges c (List.mem_cons_of_mem _ hc))
      (fun c hc => by
        have := hin c (List.mem_cons_of_mem _ hc)
        rw [spliceInsert_length]; omega)
      (by rw [spliceInsert_length]; omega)

theorem groupedAdditionsAux_nil :
    ∀ (k : Nat) (ys : List String), groupedAdditionsAux [] k ys = ys
  | _, [] => rfl
  | k, y :: ys => by
    simp [groupedAdditionsAux, groupedAdditionsAux_nil (k + 1) ys]

/-- An addition anchored strictly below the current position counter never
contributes to any later group. -/
theorem groupedAdditionsAux_cons_of_lt {a : ManualAddition}
    {rest : List ManualAddition} :
    ∀ (k : Nat) (ys : List String), a.afterLine < k →
      groupedAdditionsAux (a :: rest) k ys = groupedAdditionsAux rest k ys
  | k, [], hk => by
    have hfalse : (a.afterLine == k) = false := by
      simp only [beq_eq_false_iff_ne, ne_eq]; omega
    simp only [groupedAdditionsAux, List.filter_cons, hfalse,
      Bool.false_eq_true, if_false]
  | k, y :: ys, hk => by
    have hfalse : (a.afterLine == k) = false := by
      simp only [beq_eq_false_iff_ne, ne_eq]; omega
    have hrec : groupedAdditionsAux (a :: rest) (k + 1) ys =
        groupedAdditionsAux rest (k + 1) ys :=
      groupedAdditionsAux_cons_of_lt (k + 1) ys (by omega)
    simp only [groupedAdditionsAux, List.filter_cons, hfalse,
      Bool.false_eq_true, if_false, hrec]

/-- `groupedAdditionsAux` depends on the addition list only through its
per-anchor filtered sublists. -/
theorem groupedAdditionsAux_congr_filter {adds₁ adds₂ : List ManualAddition}
    (h : ∀ j, adds₁.filter (fun a => a.afterLine == j) =
        adds₂.filter (fun a => a.afterLine == j)) :
    ∀ (k : Nat) (ys : List String),
      groupedAdditionsAux adds₁ k ys = groupedAdditionsAux adds₂ k ys
  | _, [] => by simp only [groupedAdditionsAux, h]
  | k, y :: ys => by
    simp only [groupedAdditionsAux, h,
      groupedAdditionsAux_congr_filter h (k + 1) ys]

/-- Splicing the text of a minimally-anchored addition into the grouped
expression of the remaining additions prepends it to its own group. -/
theorem spliceInsert_groupedAdditionsAux {a : ManualAddition}
    {rest : List ManualAddition} :
    ∀ (k : Nat) (ys : List String), k ≤ a.afterLine →
      a.afterLine ≤ k + ys.length →
      (∀ b ∈ rest, a.afterLine ≤ b.afterLine) →
      spliceInsert (groupedAdditionsAux rest k ys) (a.afterLine - k) a.text =
        groupedAdditionsAux (a :: rest) k ys
  | k, [], hk, hlen, _ => by
    simp only [List.length_nil, Nat.add_zero] at hlen
    have hak : a.afterLine = k := by omega
    subst hak
    simp only [groupedAdditionsAux, List.filter_cons, beq_self_eq_true,
      if_true, List.map_cons, Nat.sub_self, spliceInsert_zero]
  | k, y :: ys, hk, hlen, hges => by
    by_cases hak : a.afterLine = k
    · subst hak
      have hrec : groupedAdditionsAux (a :: rest) (a.afterLine + 1) ys =
          groupedAdditionsAux rest (a.afterLine + 1) ys :=
        groupedAdditionsAux_cons_of_lt (a.afterLine + 1) ys (by omega)
      simp only [groupedAdditionsAux, List.filter_cons, beq_self_eq_true,
        if_true, List.map_cons, Nat.sub_self, spliceInsert_zero, hrec,
        List.cons_append]
    · have hlt : k < a.afterLine := by omega
      have hfalse : (a.afterLine == k) = false := by
        simp only [beq_eq_false_iff_ne, ne_eq]; omega
      have hfk : rest.filter (fun b => b.afterLine == k) = [] := by
        rw [List.filter_eq_nil_iff]
        intro b hb
        have := hges b hb
        simp only [beq_eq_false_iff_ne, ne_eq, Bool.not_eq_true]
        omega
      simp only [groupedAdditionsAux, List.filter_cons, hfalse,
        Bool.false_eq_true, if_false, hfk, List.map_nil, List.nil_append,
        show a.afterLine - k = (a.afterLine - (k + 1)) + 1 by omega,
        spliceInsert_succ_cons]
      rw [spliceInsert_groupedAdditionsAux (k + 1) ys (by omega)
        (by simp only [List.length_cons] at hlen; omega) hges]

/-- The insertion loop on a sorted, in-range addition list computes the
grouped-insertion expression. -/
theorem insertAdditions_sorted_grouped :
    ∀ (adds : List ManualAddition) (ys : List String),
      adds.Pairwise (fun a b => additionLE a b = true) →
      (∀ a ∈ adds, a.afterLine ≤ ys.length) →
      (insertAdditions adds (ys, 0)).1 = groupedAdditionsAux adds 0 ys
  | [], ys, _, _ => by
    rw [insertAdditions_nil, groupedAdditionsAux_nil]
  | a :: rest, ys, hsorted, hin => by
    rw [insertAdditions_cons]
    simp only [Nat.add_zero]
    have hges : ∀ b ∈ rest, a.afterLine ≤ b.afterLine := by
      intro b hb
      have := (List.pairwise_cons.mp hsorted).1 b hb
      simpa [additionLE] using this
    rw [insertAdditions_spliceInsert_comm rest ys 0 hges
        (fun b hb => by
          have := hin b (List.mem_cons_of_mem _ hb); omega)
        (hin a (List.mem_cons_self _ _)),
      insertAdditions_sorted_grouped rest ys (List.pairwise_cons.mp hsorted).2
        (fun b hb => hin b (List.mem_cons_of_mem _ hb))]
    have hstep : spliceInsert (groupedAdditionsAux rest 0 ys)
        (a.afterLine - 0) a.text = groupedAdditionsAux (a :: rest) 0 ys :=
      spliceInsert_groupedAdditionsAux 0 ys (Nat.zero_le _)
        (by simpa using hin a (List.mem_cons_self _ _)) hges
    simpa using hstep

theorem additionLE_trans (a b c : ManualAddition) (hab : additionLE a b = true)
    (hbc : additionLE b c = true) : additionLE a c = true := by
  simp only [additionLE, decide_eq_true_eq] at hab hbc ⊢
  omega

theorem additionLE_total (a b : ManualAddition) :
    (additionLE a b || additionLE b a) = true := by
  simp only [additionLE, Bool.or_eq_true, decide_eq_true_eq]
  omega

/-- Stability of the sort, phrased on per-anchor groups: sorting does not
change the filtered sublist of additions sharing any one anchor. -/
theorem filter_mergeSort_anchor (adds : List ManualAddition) (k : Nat) :
    (adds.mergeSort additionLE).filter (fun a => a.afterLine == k) =
      adds.filter (fun a => a.afterLine == k) := by
  have hconst : ∀ a ∈ adds.filter (fun a => a.afterLine == k),
      a.afterLine = k := by
    intro a ha
    have := (List.mem_filter.mp ha).2
    simpa using this
  have hself : (adds.filter (fun a => a.afterLine == k)).filter
      (fun a => a.afterLine == k) = adds.filter (fun a => a.afterLine == k) :=
    List.filter_eq_self.mpr fun a ha => by
      simp [hconst a ha]
  have hsub : List.Sublist (adds.filter (fun a => a.afterLine == k))
      (adds.mergeSort additionLE) :=
    List.sublist_mergeSort additionLE_trans additionLE_total
      (pairwise_additionLE_of_const hconst) (List.filter_sublist adds)
  have hsub2 : List.Sublist (adds.filter (fun a => a.afterLine == k))
      ((adds.mergeSort additionLE).filter (fun a => a.afterLine == k)) := by
    have := List.Sublist.filter (fun a => a.afterLine == k) hsub
    rwa [hself] at this
  have hperm : ((adds.mergeSort additionLE).filter
        (fun a => a.afterLine == k)).Perm
      (adds.filter (fun a => a.afterLine == k)) :=
    List.Perm.filter _ (List.mergeSort_perm adds additionLE)
  exact (hsub2.eq_of_length hperm.length_eq.symm).symm

/-! ### Claim theorems -/

/-- C1: addition/edit round trip (no deletions): applying the overlay and
additions that `detectEdits` finds between a baseline and an edited text
back onto the same baseline reconstructs the edited text exactly, for any
line mappings, whenever the edited text has at least as many lines as the
baseline. -/
theorem C1_roundtrip (orig edited : List String) (m : List LineMapping)
    (h : orig.length ≤ edited.length) :
    applyEditOverlay orig (detectEdits orig edited m).1
      (detectEdits orig edited m).2 = edited :=
  roundtrip_aux orig edited m h

theorem C1_roundtrip_witness :
    (["A", "B", "C"] : List String).length ≤
        (["A", "X", "C", "D"] : List String).length ∧
      applyEditOverlay ["A", "B", "C"]
        (detectEdits ["A", "B", "C"] ["A", "X", "C", "D"] []).1
        (detectEdits ["A", "B", "C"] ["A", "X", "C", "D"] []).2 =
        ["A", "X", "C", "D"] :=
  ⟨by decide, C1_roundtrip ["A", "B", "C"] ["A", "X", "C", "D"] [] (by decide)⟩

/-- C2 counterexample: on the spec's concrete scenario the code inserts the
addition anchored at `afterLine = 3` directly after the third line of the
new baseline, producing `["A","X","C","D","E"]`, so the claimed result
`["A","X","C","E","D"]` is wrong. -/
theorem C2_counterexample :
    applyEditOverlay ["A", "B", "C", "E"]
      (detectEdits ["A", "B", "C"] ["A", "X", "C", "D"] []).1
      (detectEdits ["A", "B", "C"] ["A", "X", "C", "D"] []).2 ≠
      ["A", "X", "C", "E", "D"] := by
  have h2 : detectEdits ["A", "B", "C"] ["A", "X", "C", "D"] [] =
      ([(2, { originalText := "B", editedText := "X", sourceCode := "",
              lineNumber := 2 })],
       [{ afterLine := 3, text := "D" }]) := by decide
  rw [h2]
  simp only [applyEditOverlay, List.mergeSort_singleton]
  decide

/-- C2 (amended): for baseline lines `["A","B","C"]` and edited lines
`["A","X","C","D"]`, `detectEdits` produces exactly the overlay entry
`2 : B → X` and the additions `[{afterLine := 3, text := "D"}]`, and
applying that overlay and those additions to the new baseline
`["A","B","C","E"]` returns `["A","X","C","D","E"]` (the addition is
spliced in directly after line 3, before the new trailing line `"E"`). -/
theorem C2_amended :
    detectEdits ["A", "B", "C"] ["A", "X", "C", "D"] [] =
      ([(2, { originalText := "B", editedText := "X", sourceCode := "",
              lineNumber := 2 })],
       [{ afterLine := 3, text := "D" }]) ∧
    applyEditOverlay ["A", "B", "C", "E"]
      [(2, { originalText := "B", editedText := "X", sourceCode := "",
             lineNumber := 2 })]
      [{ afterLine := 3, text := "D" }] = ["A", "X", "C", "D", "E"] := by
  refine ⟨by decide, ?_⟩
  simp only [applyEditOverlay, List.mergeSort_singleton]
  decide

/-- C3 counterexample: an addition whose `afterLine` anchor (5) exceeds the
number of baseline lines (1) is not ignored: `splice` clamps the insertion
index to the array length and appends the text at the end. -/
theorem C3_counterexample :
    applyEditOverlay ["A"] [] [{ afterLine := 5, text := "Z" }] = ["A", "Z"] ∧
      applyEditOverlay ["A"] [] [{ afterLine := 5, text := "Z" }] ≠ ["A"] := by
  have h : applyEditOverlay ["A"] [] [{ afterLine := 5, text := "Z" }] =
      ["A", "Z"] := by
    simp only [applyEditOverlay, List.mergeSort_singleton]
    decide
  exact ⟨h, by rw [h]; decide⟩

/-- C3 (amended): `applyEditOverlay` is total and never throws; overlay
entries whose `lineNumber` exceeds the number of baseline lines leave every
baseline line unchanged; but an addition whose `afterLine` anchor is at
least the number of baseline lines is appended at the end of the result
(the splice index is clamped to the list length), not ignored. -/
theorem C3_amended (lines : List String) (overlay : List (Nat × EditEntry))
    (a : ManualAddition) (hov : ∀ p ∈ overlay, lines.length < p.1)
    (ha : lines.length ≤ a.afterLine) :
    applyEditOverlay lines overlay [a] = lines ++ [a.text] := by
  simp only [applyEditOverlay, List.mergeSort_singleton]
  rw [applyOverlayLines_of_stale 0 lines
      (fun p hp => by have := hov p hp; omega),
    insertAdditions_cons, insertAdditions_nil]
  simp only
  rw [spliceInsert_of_length_le (by omega)]

theorem C3_amended_witness :
    applyEditOverlay ["A"]
      [(5, { originalText := "o", editedText := "n", sourceCode := "",
             lineNumber := 5 })]
      [{ afterLine := 3, text := "Z" }] = ["A"] ++ ["Z"] :=
  C3_amended ["A"]
    [(5, { originalText := "o", editedText := "n", sourceCode := "",
           lineNumber := 5 })]
    { afterLine := 3, text := "Z" } (by decide) (by decide)

/-- C4: for any index `i` below both line counts, the overlay produced by
`detectEdits` has an entry keyed at line number `i + 1` exactly when the
two lines at index `i` differ, and that entry carries the original line,
the edited line, and the source code looked up from the line mappings for
that line number — the empty string when no mapping for that line number
exists. -/
theorem C4_overlay_entries (orig edited : List String) (m : List LineMapping)
    (i : Nat) (h : i < min orig.length edited.length) :
    ((detectEdits orig edited m).1.lookup (i + 1) =
      if orig.getD i "" ≠ edited.getD i "" then
        some { originalText := orig.getD i "", editedText := edited.getD i "",
               sourceCode := lineToSource m (i + 1), lineNumber := i + 1 }
      else none) ∧
    ((∀ p ∈ m, p.line_number ≠ i + 1) → lineToSource m (i + 1) = "") := by
  constructor
  · have step := detectEditsAux_lookup m 0 i orig edited h
    simpa [detectEdits] using step
  · intro hnone
    simp only [lineToSource]
    rw [List.find?_eq_none.mpr fun x hx => by
      simp only [beq_iff_eq]
      exact hnone x (List.mem_reverse.mp hx)]

theorem C4_overlay_entries_witness :
    (1 < min (["A", "B"] : List String).length
        (["A", "X"] : List String).length) ∧
      (((detectEdits ["A", "B"] ["A", "X"]
          [{ line_number := 2, source_code := "src", original_text := "B" }]).1.lookup 2 =
        if (["A", "B"] : List String).getD 1 "" ≠
            (["A", "X"] : List String).getD 1 "" then
          some { originalText := (["A", "B"] : List String).getD 1 "",
                 editedText := (["A", "X"] : List String).getD 1 "",
                 sourceCode := lineToSource
                   [{ line_number := 2, source_code := "src", original_text := "B" }] 2,
                 lineNumber := 2 }
        else none) ∧
      ((∀ p ∈ [({ line_number := 2, source_code := "src",
                  original_text := "B" } : LineMapping)], p.line_number ≠ 2) →
        lineToSource
          [{ line_number := 2, source_code := "src", original_text := "B" }] 2 = "")) :=
  ⟨by decide,
    C4_overlay_entries ["A", "B"] ["A", "X"]
      [{ line_number := 2, source_code := "src", original_text := "B" }] 1
      (by decide)⟩

/-- C5: when the edited text has more lines than the original, every line
beyond the original line count becomes a manual addition, all returned
additions share the single anchor `afterLine = number of original lines`,
and their texts appear in the same order as in the edited text. -/
theorem C5_trailing_additions (orig edited : List String)
    (m : List LineMapping) (h : orig.length < edited.length) :
    (∀ a ∈ (detectEdits orig edited m).2, a.afterLine = orig.length) ∧
      (detectEdits orig edited m).2.map (fun a => a.text) =
        edited.drop orig.length := by
  have h2 : (detectEdits orig edited m).2 = (edited.drop orig.length).map
      (fun t => { afterLine := orig.length, text := t }) := by
    simp only [detectEdits]
    rw [if_pos h]
  refine ⟨?_, ?_⟩
  · rw [h2]
    intro a ha
    rcases List.mem_map.mp ha with ⟨t, _, rfl⟩
    rfl
  · rw [h2, List.map_map]
    exact List.map_id _

theorem C5_trailing_additions_witness :
    (["A"] : List String).length < (["A", "B", "C"] : List String).length ∧
      ((∀ a ∈ (detectEdits ["A"] ["A", "B", "C"] []).2,
          a.afterLine = (["A"] : List String).length) ∧
        (detectEdits ["A"] ["A", "B", "C"] []).2.map (fun a => a.text) =
          (["A", "B", "C"] : List String).drop (["A"] : List String).length) :=
  ⟨by decide, C5_trailing_additions ["A"] ["A", "B", "C"] [] (by decide)⟩

/-- C6: when the edited text has fewer lines than the original, the removed
trailing lines are dropped silently: `detectEdits` returns no additions and
records no overlay entry (and hence no tombstone) with a line number
greater than the edited line count. -/
theorem C6_shorter_edited (orig edited : List String) (m : List LineMapping)
    (h : edited.length < orig.length) :
    (detectEdits orig edited m).2 = [] ∧
      ∀ p ∈ (detectEdits orig edited m).1, p.1 ≤ edited.length := by
  refine ⟨?_, ?_⟩
  · simp only [detectEdits]
    rw [if_neg (by omega)]
  · intro p hp
    have hk := detectEditsAux_keys m 0 orig edited p (by
      simpa [detectEdits] using hp)
    omega

theorem C6_shorter_edited_witness :
    (["A"] : List String).length < (["A", "B"] : List String).length ∧
      ((detectEdits ["A", "B"] ["A"] []).2 = [] ∧
        ∀ p ∈ (detectEdits ["A", "B"] ["A"] []).1,
          p.1 ≤ (["A"] : List String).length) :=
  ⟨by decide, C6_shorter_edited ["A", "B"] ["A"] [] (by decide)⟩

/-- C7: overlay identity — applying an empty overlay and an empty additions
list returns the baseline unchanged. -/
theorem C7_overlay_identity (lines : List String) :
    applyEditOverlay lines [] [] = lines :=
  applyEditOverlay_id lines

/-- C8: the addition phase of `applyEditOverlay` sorts the additions by
`afterLine` ascending, stable on ties, and splices each one in at
`afterLine + offset` with the offset incremented after every insertion.
Consequently (for anchors within the baseline) the output interleaves the
overlaid baseline with the addition texts grouped by anchor: after the
first `k` lines come the texts of all additions anchored at `afterLine = k`,
consecutively and in their original relative order. -/
theorem C8_addition_insertion (lines : List String)
    (overlay : List (Nat × EditEntry)) (additions : List ManualAddition)
    (h : ∀ a ∈ additions, a.afterLine ≤ lines.length) :
    applyEditOverlay lines overlay additions =
      groupedAdditions additions (applyOverlayLines overlay 0 lines) := by
  simp only [applyEditOverlay, groupedAdditions]
  rw [insertAdditions_sorted_grouped (additions.mergeSort additionLE)
      (applyOverlayLines overlay 0 lines)
      (List.sorted_mergeSort additionLE_trans additionLE_total additions)
      (fun a ha => by
        rw [applyOverlayLines_length]
        exact h a (List.mem_mergeSort.mp ha))]
  exact groupedAdditionsAux_congr_filter (filter_mergeSort_anchor additions) 0 _

theorem C8_addition_insertion_witness :
    (∀ a ∈ [({ afterLine := 1, text := "x" } : ManualAddition),
        { afterLine := 0, text := "y" }, { afterLine := 1, text := "z" }],
      a.afterLine ≤ (["A", "B"] : List String).length) ∧
      applyEditOverlay ["A", "B"] []
        [{ afterLine := 1, text := "x" }, { afterLine := 0, text := "y" },
          { afterLine := 1, text := "z" }] =
        groupedAdditions
          [{ afterLine := 1, text := "x" }, { afterLine := 0, text := "y" },
            { afterLine := 1, text := "z" }]
          (applyOverlayLines [] 0 ["A", "B"]) :=
  ⟨by decide,
    C8_addition_insertion ["A", "B"] []
      [{ afterLine := 1, text := "x" }, { afterLine := 0, text := "y" },
        { afterLine := 1, text := "z" }] (by decide)⟩

/-- C9: when regeneration runs in edit mode with a report present (non-empty
generated and editable texts, non-blank shorthand), the overlay and
additions applied to the freshly assembled baseline are exactly those that
`detectEdits` returns for the in-flight editable text against the old
baseline, captured synchronously before the old baseline is replaced — so
pending edits survive the regeneration. -/
theorem C9_capture_before_regeneration (s : ReportState)
    (response : GeneratedReportResponse) (hs : s.shorthandText.trim ≠ "")
    (hm : s.isEditMode = true) (hg : s.generatedReport ≠ [""])
    (he : s.editableReport ≠ [""]) :
    (generateReport s response).generatedReport =
      applyEditOverlay response.report_text
        (detectEdits s.generatedReport s.editableReport s.lineMappings).1
        (detectEdits s.generatedReport s.editableReport s.lineMappings).2 := by
  have hcap : captureCurrentEdits s =
      ({ s with
          editOverlay :=
            (detectEdits s.generatedReport s.editableReport s.lineMappings).1,
          manualAdditions :=
            (detectEdits s.generatedReport s.editableReport s.lineMappings).2 },
        detectEdits s.generatedReport s.editableReport s.lineMappings) := by
    simp only [captureCurrentEdits]
    rw [if_pos (show s.isEditMode = true ∧ s.generatedReport ≠ [""] ∧
      s.editableReport ≠ [""] from ⟨hm, hg, he⟩)]
  simp only [generateReport, hcap]
  rw [if_neg hs]
  split
  · rfl
  · rename_i hcond
    push_neg at hcond
    obtain ⟨h1, h2⟩ := hcond
    have e1 : (detectEdits s.generatedReport s.editableReport
        s.lineMappings).1 = [] :=
      List.eq_nil_of_length_eq_zero (by omega)
    have e2 : (detectEdits s.generatedReport s.editableReport
        s.lineMappings).2 = [] :=
      List.eq_nil_of_length_eq_zero (by omega)
    rw [e1, e2, applyEditOverlay_id]

theorem C9_capture_before_regeneration_witness :
    (let s : ReportState :=
      { shorthandText := "x", generatedReport := ["A", "B"],
        editableReport := ["A", "X"], editOverlay := [], manualAdditions := [],
        isEditMode := true, lineMappings := [] }
    let response : GeneratedReportResponse :=
      { report_text := ["A", "B"], line_mappings := [] }
    (generateReport s response).generatedReport =
      applyEditOverlay response.report_text
        (detectEdits s.generatedReport s.editableReport s.lineMappings).1
        (detectEdits s.generatedReport s.editableReport s.lineMappings).2) :=
  C9_capture_before_regeneration
    { shorthandText := "x", generatedReport := ["A", "B"],
      editableReport := ["A", "X"], editOverlay := [], manualAdditions := [],
      isEditMode := true, lineMappings := [] }
    { report_text := ["A", "B"], line_mappings := [] }
    (by simp +decide [String.trim, Substring.trim, Substring.trimLeft,
      Substring.trimRight, Substring.takeWhileAux, Substring.takeRightWhileAux])
    rfl (by decide) (by decide)

/-- C10: the fast path of `generateReport` — returning the raw backend
report text when the captured overlay and additions are both empty — is
equivalent to calling `applyEditOverlay` unconditionally: both variants
produce the same state for every input state and response. -/
theorem C10_fast_path_equivalence (s : ReportState)
    (response : GeneratedReportResponse) :
    generateReport s response = generateReportUnconditional s response := by
  simp only [generateReport, generateReportUnconditional]
  split
  · rfl
  · split
    · rfl
    · rename_i hcond
      push_neg at hcond
      obtain ⟨h1, h2⟩ := hcond
      have e1 : (captureCurrentEdits s).2.1 = [] :=
        List.eq_nil_of_length_eq_zero (by omega)
      have e2 : (captureCurrentEdits s).2.2 = [] :=
        List.eq_nil_of_length_eq_zero (by omega)
      rw [e1, e2, applyEditOverlay_id]

end KidneyReport
